import Mathlib

/-!
Verification development for the arclio-rules service.

We embed the two core components of the repository:

* `RuleIndexingService` (`src/arclio_rules/services/rule_indexing_service.py`):
  an in-memory TTL + LRU cache in front of expensive fetch operations.
  Python dictionaries (`self.cache`, `self.access_times`) are modelled as
  association lists preserving insertion order, which matches CPython dict
  iteration order; `min(dict, key=dict.get)` is modelled by a first-minimum
  scan in iteration order.  Timestamps (`time.time()`) are modelled as an
  explicit `Int` parameter `now` supplied to every operation.
  The service guards its dict bookkeeping with a single non-reentrant
  `threading.Lock`; `_get_cached_or_fetch` calls `_evict_oldest` while
  already holding that lock, and `_evict_oldest` re-acquires it whenever the
  cache is at capacity, so a genuine eviction attempt blocks forever.  The
  model keeps this: the outcome of a call is a returned value, a propagated
  exception, or `hung` — the call never returns and both dicts are left
  exactly as they were when the thread blocked.

* `RuleStorageService` (`src/arclio_rules/services/rule_storage_service.py`):
  git-backed rule storage.  The filesystem content of the tenant and shared
  ("core") mirrors is modelled as partial maps from paths to contents; git
  side effects (clone/pull/push) are assumed to succeed, and the part of the
  control flow that the claims are about (fallback order, commit message
  selection, directory listing filter) is translated statement by statement.
-/

namespace ArclioRules

/-! ## Association-list model of a Python dict -/

/-- `d[k]` / `k in d` lookup in a Python dict, modelled on an association
list kept in insertion order. -/
def alLookup (k : String) : List (String × β) → Option β
  | [] => none
  | (k', v) :: rest => if k' = k then some v else alLookup k rest

/-- `d[k] = v` on a Python dict: updates the existing entry in place
(keeping its position) or appends a new entry at the end. -/
def alInsert (k : String) (v : β) : List (String × β) → List (String × β)
  | [] => [(k, v)]
  | (k', v') :: rest =>
      if k' = k then (k, v) :: rest else (k', v') :: alInsert k v rest

/-- `d.pop(k, None)` on a Python dict.  Since dict keys are unique this is
removal of the (at most one) entry with key `k`; the model removes every
entry with key `k`, which coincides under the no-duplicate-keys invariant. -/
def alErase (k : String) : List (String × β) → List (String × β)
  | [] => []
  | (k', v) :: rest =>
      if k' = k then alErase k rest else (k', v) :: alErase k rest

/-- The keys of a dict, in iteration order. -/
def alKeys (l : List (String × β)) : List String := l.map Prod.fst

/-- `min(d, key=d.get)`: the first key (in iteration order) whose value is
minimal, or `none` when the dict is empty — in which case CPython's `min`
raises `ValueError`. -/
def minByVal : List (String × Int) → Option (String × Int)
  | [] => none
  | (k, v) :: rest =>
      match minByVal rest with
      | none => some (k, v)
      | some (k', v') => if v ≤ v' then some (k, v) else some (k', v')

/-! ## The cache model (`RuleIndexingService`) -/

/-- One value of `self.cache`: `{"data": ..., "timestamp": ...}`. -/
structure CacheEntry (α : Type) where
  data : α
  timestamp : Int
  deriving Repr, DecidableEq

/-- The mutable state of `RuleIndexingService`: `self.cache` and
`self.access_times`. -/
structure CacheState (α : Type) where
  cache : List (String × CacheEntry α)
  accessTimes : List (String × Int)
  deriving Repr, DecidableEq

/-- The state right after `__init__`: both dicts empty. -/
def emptyCache : CacheState α := ⟨[], []⟩

/-- `_is_cache_valid`: `time.time() - entry["timestamp"] < self.ttl_seconds`. -/
def is_cache_valid (ttl : Int) (now : Int) (e : CacheEntry α) : Bool :=
  now - e.timestamp < ttl

/-- How one call of `_evict_oldest` ends, seen from its caller
`_get_cached_or_fetch` (the only caller, line 111, which at that point
already holds the non-reentrant `self.lock` acquired at line 110). -/
inductive EvictOutcome (α : Type) where
  | proceed (st : CacheState α)
  | valueError
  | deadlock
  deriving Repr, DecidableEq

/-- `_evict_oldest`: when the cache is below `max_cache_size` it returns at
once without touching anything (`proceed`).  Otherwise it first computes
`min(self.access_times, key=self.access_times.get)` (line 71) — which raises
`ValueError` when `access_times` is empty — and then executes
`with self.lock:` (line 72), re-acquiring the non-reentrant `threading.Lock`
its caller already holds: the thread blocks forever (`deadlock`) and the
pops at lines 74-75 are never reached, so no entry is ever evicted. -/
def evict_oldest (maxSize : Nat) (st : CacheState α) : EvictOutcome α :=
  if st.cache.length ≥ maxSize then
    match minByVal st.accessTimes with
    | none => EvictOutcome.valueError
    | some _ => EvictOutcome.deadlock
  else
    EvictOutcome.proceed st

/-- How one `_get_cached_or_fetch` call ends for its caller: a value is
returned, an exception propagates (`raised`), or the call never returns
because the thread deadlocked (`hung`). -/
inductive CallResult (α : Type) where
  | value (d : α)
  | raised
  | hung
  deriving Repr, DecidableEq

/-- Observable outcome of one `_get_cached_or_fetch` call: how the call
ends, the contents of `self.cache`/`self.access_times` afterwards (for
`hung`, at the moment the thread blocks — it has mutated nothing and never
will), and whether `fetch_func` was invoked. -/
structure FetchOutcome (α : Type) where
  result : CallResult α
  state : CacheState α
  fetchInvoked : Bool
  deriving Repr, DecidableEq

/-- The miss path of `_get_cached_or_fetch`: call `fetch_func` (modelled as
`Option α`, `none` = it raised); on success enter the lock block and call
`_evict_oldest`, then insert the new entry with creation and access
timestamps `now`.  A `ValueError` from `_evict_oldest` propagates with the
state unchanged; its deadlock leaves the call hung with the state unchanged
(nothing was popped, nothing inserted). -/
def cache_miss_fetch (maxSize : Nat) (now : Int) (st : CacheState α)
    (key : String) (fetch : Option α) : FetchOutcome α :=
  match fetch with
  | none => ⟨CallResult.raised, st, true⟩
  | some d =>
      match evict_oldest maxSize st with
      | EvictOutcome.valueError => ⟨CallResult.raised, st, true⟩
      | EvictOutcome.deadlock => ⟨CallResult.hung, st, true⟩
      | EvictOutcome.proceed st1 =>
          ⟨CallResult.value d,
           ⟨alInsert key ⟨d, now⟩ st1.cache, alInsert key now st1.accessTimes⟩,
           true⟩

/-- `_get_cached_or_fetch` for an already-generated cache key: on a valid hit
return the memoized data and refresh the access time; otherwise run the miss
path. -/
def get_cached_or_fetch (ttl : Int) (maxSize : Nat) (now : Int)
    (st : CacheState α) (key : String) (fetch : Option α) : FetchOutcome α :=
  match alLookup key st.cache with
  | some e =>
      if is_cache_valid ttl now e then
        ⟨CallResult.value e.data, ⟨st.cache, alInsert key now st.accessTimes⟩,
         false⟩
      else
        cache_miss_fetch maxSize now st key fetch
  | none => cache_miss_fetch maxSize now st key fetch

/-- `invalidate_cache` for an already-generated cache key: if the key is in
`self.cache`, pop it from both dicts; otherwise do nothing. -/
def invalidate_cache (st : CacheState α) (key : String) : CacheState α :=
  if (alLookup key st.cache).isSome then
    ⟨alErase key st.cache, alErase key st.accessTimes⟩
  else
    st

/-! ## Cache key generation (`_generate_cache_key`) -/

/-- Python string `<`: lexicographic comparison of code points. -/
def strLtb : List Char → List Char → Bool
  | [], [] => false
  | [], _ :: _ => true
  | _ :: _, [] => false
  | a :: as, b :: bs =>
      if a < b then true else if b < a then false else strLtb as bs

/-- Python tuple `<=` on `(key, value)` pairs of strings, as used by
`sorted(params.items())`: compare keys first, then values. -/
def pairLeb (p q : String × String) : Bool :=
  strLtb p.1.data q.1.data ||
    (p.1 == q.1 && (strLtb p.2.data q.2.data || p.2 == q.2))

/-- Insert a pair into a sorted list of pairs, keeping it sorted. -/
def insertPair (p : String × String) :
    List (String × String) → List (String × String)
  | [] => [p]
  | q :: rest => if pairLeb p q then p :: q :: rest else q :: insertPair p rest

/-- Python `sorted` on the items of a dict of string parameters.  Since
`pairLeb` is a linear order on pairs, every sorting algorithm produces this
result, so the choice of insertion sort is immaterial. -/
def sortPairs : List (String × String) → List (String × String)
  | [] => []
  | p :: rest => insertPair p (sortPairs rest)

/-- `_generate_cache_key` up to the final SHA-256 digest:
`key_input = f"{method}:{params_str}"` with
`params_str = "&".join(f"{k}={str(v)}" for k, v in sorted(params.items()))`.
The actual cache key is the SHA-256 hex digest of this string; determinism of
the key follows from determinism of this pre-hash string, and since collisions
of the hash itself are treated as negligible, distinctness of keys reduces to
distinctness of this pre-hash string. -/
def generate_cache_key_input (method : String)
    (params : List (String × String)) : String :=
  method ++ ":" ++
    String.intercalate "&" ((sortPairs params).map (fun p => p.1 ++ "=" ++ p.2))

/-! ## The storage model (`RuleStorageService`) -/

/-- Result of a storage operation: the `{"success": True, ...}` /
`{"success": False, "error": ...}` dictionaries of the source. -/
inductive FetchResult where
  | success (content : String)
  | failure (error : String)
  deriving Repr, DecidableEq

/-- `get_rule_content`: the tenant and shared-core mirrors are modelled as
partial maps from rule paths to file contents (`Path.exists` /
`Path.read_text`).  The returned flag records whether the shared core mirror
was consulted (cloned or pulled and its file checked), which in the source
happens only after the tenant-mirror lookup misses. -/
def get_rule_content (tenantFiles coreFiles : String → Option String)
    (rulePath : String) : FetchResult × Bool :=
  match tenantFiles rulePath with
  | some content => (.success content, false)
  | none =>
      match coreFiles rulePath with
      | some content => (.success content, true)
      | none => (.failure "Rule not found", true)

/-- Python `x or y` for `x : Optional[str]`: both `None` and the empty
string are falsy, so they select the default. -/
def pyOrStr (x : Option String) (default : String) : String :=
  match x with
  | none => default
  | some s => if s = "" then default else s

/-- Observable effect of a successful `save_rule_content`: the content
written at the path, the message of the commit, and the branch pushed to. -/
structure SaveOutcome where
  fileContent : String
  commitMessage : String
  pushedBranch : String
  deriving Repr, DecidableEq

/-- `save_rule_content` (success path): writes `content`, commits with
`commit_message or f"Update {rule_path}"`, pushes `origin main`. -/
def save_rule_content (rulePath content : String)
    (commitMessage : Option String) : SaveOutcome :=
  ⟨content, pyOrStr commitMessage ("Update " ++ rulePath), "main"⟩

/-- An immediate child of a directory, as classified by `item.is_dir()`. -/
inductive DirItem where
  | dir (name : String)
  | file (name : String)
  deriving Repr, DecidableEq

/-- One element of the `rules` list built by `list_rules`: either a
`{"type": "dir"}` dictionary or a `{"type": "file"}` dictionary with its
`sha` and `url` fields. -/
inductive RuleEntry where
  | dirEntry (name path : String)
  | fileEntry (name path sha url : String)
  deriving Repr, DecidableEq

/-- Index of the last occurrence of `c`, as `str.rfind` computes it. -/
def lastIdxOf (c : Char) : List Char → Option Nat
  | [] => none
  | x :: rest =>
      match lastIdxOf c rest with
      | some i => some (i + 1)
      | none => if x = c then some 0 else none

/-- `pathlib.PurePath.suffix` of a file name: the substring from the last
dot, except when that dot is the first or the last character. -/
def pySuffix (name : String) : String :=
  match lastIdxOf '.' name.data with
  | none => ""
  | some i =>
      if 0 < i ∧ i + 1 < name.data.length then String.mk (name.data.drop i)
      else ""

/-- `item.relative_to(repo.working_dir)` for an immediate child `name` of
the listed directory. -/
def relativePath (directory name : String) : String :=
  if directory = "" then name else directory ++ "/" ++ name

/-- The constructed browse URL of a rule file. -/
def browseUrl (org clientId relPath : String) : String :=
  "https://github.com/" ++ org ++ "/arclio-rules-client-" ++ clientId ++
    "/blob/main/" ++ relPath

/-- `list_rules`: `directoryListing` is `none` when the directory does not
exist or is not a directory (`not dir_path.exists() or not
dir_path.is_dir()`), otherwise the list of immediate children in iteration
order; `headSha` models `repo.git.rev_parse(f"HEAD:{relative_path}")`. -/
def list_rules (org clientId : String) (headSha : String → String)
    (directoryListing : Option (List DirItem)) (directory : String) :
    Except String (List RuleEntry) :=
  match directoryListing with
  | none => .error "Directory not found"
  | some items =>
      .ok (items.filterMap fun item =>
        match item with
        | .dir name => some (.dirEntry name (relativePath directory name))
        | .file name =>
            if pySuffix name = ".mdc" then
              some (.fileEntry name (relativePath directory name)
                (headSha (relativePath directory name))
                (browseUrl org clientId (relativePath directory name)))
            else none)

/-! ## Sequences of cache operations (for the size invariant) -/

/-- One externally triggered cache operation: a cached read (any of the
`list_*`/`get_rule` wrappers, at some time `now`, whose underlying fetch
either returns a value or raises) or an invalidation. -/
inductive CacheOp (α : Type) where
  | read (key : String) (now : Int) (fetch : Option α)
  | invalidate (key : String)

/-- Apply one operation to the service state. -/
def applyOp (ttl : Int) (maxSize : Nat) (st : CacheState α) :
    CacheOp α → CacheState α
  | .read key now fetch => (get_cached_or_fetch ttl maxSize now st key fetch).state
  | .invalidate key => invalidate_cache st key

/-- Apply a sequence of operations in order. -/
def applyOps (ttl : Int) (maxSize : Nat) (st : CacheState α) :
    List (CacheOp α) → CacheState α
  | [] => st
  | op :: rest => applyOps ttl maxSize (applyOp ttl maxSize st op) rest

/-- Well-formedness of the service state, maintained by the source because
`self.cache` and `self.access_times` are always mutated together: dict keys
are unique, and both dicts hold the same keys in the same order. -/
def WF (st : CacheState α) : Prop :=
  (alKeys st.cache).Nodup ∧ alKeys st.accessTimes = alKeys st.cache

instance (st : CacheState α) : Decidable (WF st) := by
  unfold WF
  infer_instance

/-! ## Lemmas about the dict model -/

theorem alLookup_insert_self (k : String) (v : β) (l : List (String × β)) :
    alLookup k (alInsert k v l) = some v := by
  induction l with
  | nil => simp [alInsert, alLookup]
  | cons p rest ih =>
      obtain ⟨p1, p2⟩ := p
      by_cases h : p1 = k
      · simp [alInsert, alLookup, h]
      · simp [alInsert, alLookup, h, ih]

theorem alLookup_insert_ne (hk : k' ≠ k) (v : β) (l : List (String × β)) :
    alLookup k' (alInsert k v l) = alLookup k' l := by
  have hk2 : ¬(k = k') := fun h => hk h.symm
  induction l with
  | nil => simp [alInsert, alLookup, hk2]
  | cons p rest ih =>
      obtain ⟨p1, p2⟩ := p
      by_cases h : p1 = k
      · simp [alInsert, alLookup, h, hk2]
      · by_cases h2 : p1 = k'
        · simp [alInsert, alLookup, h, h2, hk]
        · simp [alInsert, alLookup, h, h2, ih]

theorem alLookup_erase_self (k : String) (l : List (String × β)) :
    alLookup k (alErase k l) = none := by
  induction l with
  | nil => simp [alErase, alLookup]
  | cons p rest ih =>
      obtain ⟨p1, p2⟩ := p
      by_cases h : p1 = k
      · simp [alErase, h, ih]
      · simp [alErase, alLookup, h, ih]

theorem alLookup_erase_ne (hk : k' ≠ k) (l : List (String × β)) :
    alLookup k' (alErase k l) = alLookup k' l := by
  have hk2 : ¬(k = k') := fun h' => hk h'.symm
  induction l with
  | nil => simp [alErase]
  | cons p rest ih =>
      obtain ⟨p1, p2⟩ := p
      by_cases h : p1 = k
      · have h2 : ¬(p1 = k') := by rw [h]; exact fun h' => hk h'.symm
        simp [alErase, alLookup, h, h2, hk2, ih]
      · by_cases h2 : p1 = k'
        · simp [alErase, alLookup, h, h2, hk]
        · simp [alErase, alLookup, h, h2, ih]

theorem alLookup_isSome_iff_mem (k : String) (l : List (String × β)) :
    (alLookup k l).isSome ↔ k ∈ alKeys l := by
  induction l with
  | nil => simp [alLookup, alKeys]
  | cons p rest ih =>
      obtain ⟨p1, p2⟩ := p
      by_cases h : p1 = k
      · simp [alLookup, alKeys, h]
      · simp only [alLookup, alKeys, List.map_cons, List.mem_cons, if_neg h]
        simp only [alKeys] at ih
        rw [ih]
        constructor
        · exact fun hs => Or.inr hs
        · intro hs
          rcases hs with hs | hs
          · exact absurd hs.symm h
          · exact hs

theorem alKeys_insert (k : String) (v : β) (l : List (String × β)) :
    alKeys (alInsert k v l) =
      if (alLookup k l).isSome then alKeys l else alKeys l ++ [k] := by
  induction l with
  | nil => simp [alInsert, alLookup, alKeys]
  | cons p rest ih =>
      obtain ⟨p1, p2⟩ := p
      by_cases h : p1 = k
      · simp [alInsert, alLookup, alKeys, h]
      · simp only [alInsert, alLookup, alKeys, List.map_cons, if_neg h] at ih ⊢
        rw [ih]
        by_cases hs : (alLookup k rest).isSome
        · simp [hs]
        · simp [hs]

theorem mem_alKeys_erase (x k : String) (l : List (String × β)) :
    x ∈ alKeys (alErase k l) ↔ x ∈ alKeys l ∧ x ≠ k := by
  induction l with
  | nil => simp [alErase, alKeys]
  | cons p rest ih =>
      obtain ⟨p1, p2⟩ := p
      simp only [alKeys, List.map_cons] at ih ⊢
      by_cases h : p1 = k
      · simp only [alErase, if_pos h]
        rw [ih, List.mem_cons]
        constructor
        · exact fun ⟨hm, hne⟩ => ⟨Or.inr hm, hne⟩
        · rintro ⟨hm | hm, hne⟩
          · exact absurd (hm.trans h) hne
          · exact ⟨hm, hne⟩
      · simp only [alErase, if_neg h, List.map_cons, List.mem_cons]
        rw [ih]
        constructor
        · rintro (hm | ⟨hm, hne⟩)
          · exact ⟨Or.inl hm, by rw [hm]; exact h⟩
          · exact ⟨Or.inr hm, hne⟩
        · rintro ⟨hm | hm, hne⟩
          · exact Or.inl hm
          · exact Or.inr ⟨hm, hne⟩

theorem alKeys_erase_nodup (k : String) (l : List (String × β))
    (h : (alKeys l).Nodup) : (alKeys (alErase k l)).Nodup := by
  induction l with
  | nil => simp [alErase, alKeys]
  | cons p rest ih =>
      obtain ⟨p1, p2⟩ := p
      simp only [alKeys, List.map_cons, List.nodup_cons] at h
      by_cases hp : p1 = k
      · simp only [alErase, if_pos hp]
        exact ih h.2
      · simp only [alErase, if_neg hp, alKeys, List.map_cons, List.nodup_cons]
        refine ⟨fun hm => ?_, ih h.2⟩
        have := (mem_alKeys_erase p1 k rest).mp (by simpa [alKeys] using hm)
        exact h.1 (by simpa [alKeys] using this.1)

theorem alKeys_insert_nodup (k : String) (v : β) (l : List (String × β))
    (h : (alKeys l).Nodup) : (alKeys (alInsert k v l)).Nodup := by
  rw [alKeys_insert]
  by_cases hs : (alLookup k l).isSome
  · simpa [hs]
  · simp only [hs, if_false, Bool.false_eq_true]
    rw [List.nodup_append]
    refine ⟨h, List.nodup_singleton k, ?_⟩
    intro x hx hk
    rw [List.mem_singleton] at hk
    subst hk
    exact hs ((alLookup_isSome_iff_mem _ _).mpr hx)

theorem alErase_length_le (k : String) (l : List (String × β)) :
    (alErase k l).length ≤ l.length := by
  induction l with
  | nil => simp [alErase]
  | cons p rest ih =>
      obtain ⟨p1, p2⟩ := p
      by_cases h : p1 = k
      · simp only [alErase, if_pos h, List.length_cons]
        omega
      · simp only [alErase, if_neg h, List.length_cons]
        omega

theorem alErase_eq_of_not_mem (k : String) (l : List (String × β))
    (h : k ∉ alKeys l) : alErase k l = l := by
  induction l with
  | nil => simp [alErase]
  | cons p rest ih =>
      obtain ⟨p1, p2⟩ := p
      simp only [alKeys, List.map_cons, List.mem_cons] at h
      push_neg at h
      have hp : ¬(p1 = k) := fun hh => h.1 hh.symm
      rw [alErase, if_neg hp, ih (by simpa [alKeys] using h.2)]

theorem alErase_length_of_mem (k : String) (l : List (String × β))
    (hnd : (alKeys l).Nodup) (hm : k ∈ alKeys l) :
    (alErase k l).length + 1 = l.length := by
  induction l with
  | nil => simp [alKeys] at hm
  | cons p rest ih =>
      obtain ⟨p1, p2⟩ := p
      simp only [alKeys, List.map_cons, List.nodup_cons] at hnd
      by_cases h : p1 = k
      · have hnm : k ∉ alKeys rest := by
          simp only [alKeys]
          rw [← h]
          exact hnd.1
        rw [alErase, if_pos h, alErase_eq_of_not_mem k rest hnm]
        simp
      · simp only [alKeys, List.map_cons, List.mem_cons] at hm
        rcases hm with hm | hm
        · exact absurd hm.symm h
        · rw [alErase, if_neg h]
          simp only [List.length_cons]
          have := ih hnd.2 (by simpa [alKeys] using hm)
          omega

theorem alInsert_length_le (k : String) (v : β) (l : List (String × β)) :
    (alInsert k v l).length ≤ l.length + 1 := by
  induction l with
  | nil => simp [alInsert]
  | cons p rest ih =>
      obtain ⟨p1, p2⟩ := p
      by_cases h : p1 = k
      · simp [alInsert, h]
      · simp only [alInsert, if_neg h, List.length_cons]
        omega

theorem minByVal_none_iff (l : List (String × Int)) :
    minByVal l = none ↔ l = [] := by
  cases l with
  | nil => simp [minByVal]
  | cons q rest =>
      obtain ⟨q1, q2⟩ := q
      simp only [List.cons_ne_nil, iff_false]
      cases hr : minByVal rest with
      | none => simp [minByVal, hr]
      | some m =>
          obtain ⟨m1, m2⟩ := m
          simp only [minByVal, hr]
          by_cases hle : q2 ≤ m2 <;> simp [hle]

theorem minByVal_mem (l : List (String × Int)) (p : String × Int)
    (h : minByVal l = some p) : p ∈ l := by
  induction l generalizing p with
  | nil => simp [minByVal] at h
  | cons q rest ih =>
      obtain ⟨q1, q2⟩ := q
      cases hr : minByVal rest with
      | none =>
          simp only [minByVal, hr] at h
          cases h
          exact List.mem_cons_self _ _
      | some m =>
          obtain ⟨m1, m2⟩ := m
          simp only [minByVal, hr] at h
          by_cases hle : q2 ≤ m2
          · rw [if_pos hle] at h
            cases h
            exact List.mem_cons_self _ _
          · rw [if_neg hle] at h
            cases h
            exact List.mem_cons_of_mem _ (ih _ hr)

theorem minByVal_le (l : List (String × Int)) (p : String × Int)
    (h : minByVal l = some p) : ∀ q ∈ l, p.2 ≤ q.2 := by
  induction l generalizing p with
  | nil => simp [minByVal] at h
  | cons q rest ih =>
      obtain ⟨q1, q2⟩ := q
      intro r hr
      cases hm : minByVal rest with
      | none =>
          have hrest : rest = [] := (minByVal_none_iff rest).mp hm
          subst hrest
          simp only [minByVal] at h
          cases h
          rcases List.mem_cons.mp hr with hr2 | hr2
          · subst hr2
            exact le_refl _
          · simp at hr2
      | some m =>
          obtain ⟨m1, m2⟩ := m
          simp only [minByVal, hm] at h
          by_cases hle : q2 ≤ m2
          · rw [if_pos hle] at h
            cases h
            rcases List.mem_cons.mp hr with hr2 | hr2
            · subst hr2
              exact le_refl _
            · exact le_trans hle (ih (m1, m2) hm r hr2)
          · rw [if_neg hle] at h
            cases h
            rcases List.mem_cons.mp hr with hr2 | hr2
            · subst hr2
              exact le_of_lt (lt_of_not_le hle)
            · exact ih (m1, m2) hm r hr2

theorem minByVal_isSome (l : List (String × Int)) (h : l ≠ []) :
    (minByVal l).isSome := by
  cases hm : minByVal l with
  | none => exact absurd ((minByVal_none_iff l).mp hm) h
  | some m => simp

theorem alKeys_erase (k : String) (l : List (String × β)) :
    alKeys (alErase k l) = (alKeys l).filter (fun x => x != k) := by
  induction l with
  | nil => simp [alErase, alKeys]
  | cons p rest ih =>
      obtain ⟨p1, p2⟩ := p
      by_cases h : p1 = k
      · subst h
        simp only [alKeys, List.map_cons, List.filter_cons] at ih ⊢
        simp [alErase, ih]
      · simp only [alKeys, List.map_cons, List.filter_cons] at ih ⊢
        simp [alErase, h, ih, bne_iff_ne]

/-! ## Preservation of well-formedness -/

theorem WF_empty : WF (emptyCache : CacheState α) := by
  constructor <;> simp [emptyCache, alKeys]

theorem WF_insert (st : CacheState α) (key : String) (e : CacheEntry α)
    (t : Int) (h : WF st) :
    WF ⟨alInsert key e st.cache, alInsert key t st.accessTimes⟩ := by
  obtain ⟨hnd, heq⟩ := h
  constructor
  · exact alKeys_insert_nodup _ _ _ hnd
  · show alKeys (alInsert key t st.accessTimes) = alKeys (alInsert key e st.cache)
    rw [alKeys_insert, alKeys_insert]
    have hiff : (alLookup key st.accessTimes).isSome ↔
        (alLookup key st.cache).isSome := by
      rw [alLookup_isSome_iff_mem, alLookup_isSome_iff_mem, heq]
    by_cases hs : (alLookup key st.cache).isSome
    · rw [if_pos hs, if_pos (hiff.mpr hs), heq]
    · rw [if_neg hs, if_neg (fun hh => hs (hiff.mp hh)), heq]

theorem WF_erase (st : CacheState α) (key : String) (h : WF st) :
    WF ⟨alErase key st.cache, alErase key st.accessTimes⟩ := by
  obtain ⟨hnd, heq⟩ := h
  constructor
  · exact alKeys_erase_nodup _ _ hnd
  · show alKeys (alErase key st.accessTimes) = alKeys (alErase key st.cache)
    rw [alKeys_erase, alKeys_erase, heq]

theorem WF_touch (st : CacheState α) (key : String) (t : Int) (h : WF st)
    (hs : (alLookup key st.cache).isSome) :
    WF ⟨st.cache, alInsert key t st.accessTimes⟩ := by
  obtain ⟨hnd, heq⟩ := h
  have hs' : (alLookup key st.accessTimes).isSome := by
    rw [alLookup_isSome_iff_mem, heq, ← alLookup_isSome_iff_mem]
    exact hs
  exact ⟨hnd, by
    show alKeys (alInsert key t st.accessTimes) = alKeys st.cache
    rw [alKeys_insert, if_pos hs', heq]⟩

theorem accessTimes_ne_nil (st : CacheState α) (h : WF st)
    (hc : st.cache ≠ []) : st.accessTimes ≠ [] := by
  intro hat
  apply hc
  have := h.2
  rw [hat] at this
  simp only [alKeys, List.map_nil] at this
  exact List.map_eq_nil_iff.mp this.symm

/-! ## Helper lemmas about `_get_cached_or_fetch` -/

theorem cache_miss_fetch_invoked (maxSize : Nat) (now : Int)
    (st : CacheState α) (key : String) (fetch : Option α) :
    (cache_miss_fetch maxSize now st key fetch).fetchInvoked = true := by
  cases fetch with
  | none => rfl
  | some d =>
      rw [cache_miss_fetch]
      cases evict_oldest maxSize st with
      | proceed st1 => rfl
      | valueError => rfl
      | deadlock => rfl

theorem get_hit_eq (ttl : Int) (maxSize : Nat) (now : Int)
    (st : CacheState α) (key : String) (fetch : Option α) (e : CacheEntry α)
    (h : alLookup key st.cache = some e) (hv : now - e.timestamp < ttl) :
    get_cached_or_fetch ttl maxSize now st key fetch =
      ⟨CallResult.value e.data, ⟨st.cache, alInsert key now st.accessTimes⟩,
       false⟩ := by
  rw [get_cached_or_fetch, h]
  simp [is_cache_valid, hv]

theorem get_miss_eq (ttl : Int) (maxSize : Nat) (now : Int)
    (st : CacheState α) (key : String) (fetch : Option α)
    (h : alLookup key st.cache = none ∨
      ∀ e, alLookup key st.cache = some e → ttl ≤ now - e.timestamp) :
    get_cached_or_fetch ttl maxSize now st key fetch =
      cache_miss_fetch maxSize now st key fetch := by
  rcases h with h | h
  · rw [get_cached_or_fetch, h]
  · cases hl : alLookup key st.cache with
    | none => rw [get_cached_or_fetch, hl]
    | some e =>
        have hv : ¬(now - e.timestamp < ttl) := not_lt.mpr (h e hl)
        rw [get_cached_or_fetch, hl]
        simp [is_cache_valid, hv]

theorem get_fetch_invoked_of_miss (ttl : Int) (maxSize : Nat) (now : Int)
    (st : CacheState α) (key : String) (fetch : Option α)
    (h : alLookup key st.cache = none ∨
      ∀ e, alLookup key st.cache = some e → ttl ≤ now - e.timestamp) :
    (get_cached_or_fetch ttl maxSize now st key fetch).fetchInvoked = true := by
  rw [get_miss_eq ttl maxSize now st key fetch h]
  exact cache_miss_fetch_invoked maxSize now st key fetch

theorem get_miss_fail_eq (ttl : Int) (maxSize : Nat) (now : Int)
    (st : CacheState α) (key : String)
    (h : alLookup key st.cache = none ∨
      ∀ e, alLookup key st.cache = some e → ttl ≤ now - e.timestamp) :
    get_cached_or_fetch ttl maxSize now st key none =
      ⟨CallResult.raised, st, true⟩ := by
  rw [get_miss_eq ttl maxSize now st key none h]
  rfl

theorem get_miss_insert (ttl : Int) (maxSize : Nat) (now : Int)
    (st : CacheState α) (key : String) (d : α)
    (h : alLookup key st.cache = none) (hlen : st.cache.length < maxSize) :
    get_cached_or_fetch ttl maxSize now st key (some d) =
      ⟨CallResult.value d,
       ⟨alInsert key ⟨d, now⟩ st.cache, alInsert key now st.accessTimes⟩,
       true⟩ := by
  have hge : ¬(st.cache.length ≥ maxSize) := not_le.mpr hlen
  rw [get_cached_or_fetch, h, cache_miss_fetch, evict_oldest, if_neg hge]

theorem evict_oldest_proceed (maxSize : Nat) (st st1 : CacheState α)
    (h : evict_oldest maxSize st = EvictOutcome.proceed st1) :
    st1 = st ∧ st.cache.length < maxSize := by
  rw [evict_oldest] at h
  by_cases hge : st.cache.length ≥ maxSize
  · rw [if_pos hge] at h
    cases hm : minByVal st.accessTimes with
    | none => simp [hm] at h
    | some m => simp [hm] at h
  · rw [if_neg hge] at h
    cases h
    exact ⟨rfl, not_le.mp hge⟩

theorem evict_oldest_deadlock (maxSize : Nat) (st : CacheState α)
    (hge : maxSize ≤ st.cache.length) (k₀ : String) (t₀ : Int)
    (hmin : minByVal st.accessTimes = some (k₀, t₀)) :
    evict_oldest maxSize st = EvictOutcome.deadlock := by
  rw [evict_oldest, if_pos hge, hmin]

theorem get_miss_deadlock (ttl : Int) (maxSize : Nat) (now : Int)
    (st : CacheState α) (key : String) (d : α)
    (hmiss : alLookup key st.cache = none)
    (hge : maxSize ≤ st.cache.length) (hat : st.accessTimes ≠ []) :
    get_cached_or_fetch ttl maxSize now st key (some d) =
      ⟨CallResult.hung, st, true⟩ := by
  cases hm : minByVal st.accessTimes with
  | none => exact absurd ((minByVal_none_iff _).mp hm) hat
  | some m =>
      obtain ⟨k₀, t₀⟩ := m
      rw [get_miss_eq ttl maxSize now st key (some d) (Or.inl hmiss),
        cache_miss_fetch, evict_oldest_deadlock maxSize st hge k₀ t₀ hm]

theorem cache_miss_fetch_WF (maxSize : Nat) (now : Int) (st : CacheState α)
    (key : String) (fetch : Option α) (hWF : WF st) :
    WF (cache_miss_fetch maxSize now st key fetch).state := by
  cases fetch with
  | none => exact hWF
  | some d =>
      rw [cache_miss_fetch]
      cases he : evict_oldest maxSize st with
      | valueError => exact hWF
      | deadlock => exact hWF
      | proceed st1 =>
          obtain ⟨heq, hlt⟩ := evict_oldest_proceed maxSize st st1 he
          show WF ⟨alInsert key ⟨d, now⟩ st1.cache, alInsert key now st1.accessTimes⟩
          rw [heq]
          exact WF_insert st key ⟨d, now⟩ now hWF

theorem cache_miss_fetch_len (maxSize : Nat) (now : Int) (st : CacheState α)
    (key : String) (fetch : Option α) (hlen : st.cache.length ≤ maxSize) :
    (cache_miss_fetch maxSize now st key fetch).state.cache.length ≤ maxSize := by
  cases fetch with
  | none => exact hlen
  | some d =>
      rw [cache_miss_fetch]
      cases he : evict_oldest maxSize st with
      | valueError => exact hlen
      | deadlock => exact hlen
      | proceed st1 =>
          obtain ⟨heq, hlt⟩ := evict_oldest_proceed maxSize st st1 he
          show (alInsert key ⟨d, now⟩ st1.cache).length ≤ maxSize
          rw [heq]
          have h2 := alInsert_length_le key (⟨d, now⟩ : CacheEntry α) st.cache
          omega

/-! ## Claims about the storage service -/

/-- **C1.** For every tenant and rule path: if the path exists as a file in
the tenant's mirror, `get_rule_content` returns that tenant file's content
and the shared mirror is never consulted; if the path is absent in the
tenant mirror but present in the shared core mirror, it returns the shared
content; if it is absent in both, it returns a `NotFound` failure. -/
theorem claim_C1 (tenantFiles coreFiles : String → Option String)
    (path : String) :
    (∀ c, tenantFiles path = some c →
      get_rule_content tenantFiles coreFiles path = (FetchResult.success c, false)) ∧
    (tenantFiles path = none → ∀ c, coreFiles path = some c →
      get_rule_content tenantFiles coreFiles path = (FetchResult.success c, true)) ∧
    (tenantFiles path = none → coreFiles path = none →
      get_rule_content tenantFiles coreFiles path =
        (FetchResult.failure "Rule not found", true)) := by
  refine ⟨fun c hc => ?_, fun ht c hc => ?_, fun ht hc => ?_⟩ <;>
    simp [get_rule_content, *]

theorem claim_C1_witness :
    get_rule_content (fun p => if p = "a/b.mdc" then some "X" else none)
      (fun _ => some "Y") "a/b.mdc" = (FetchResult.success "X", false) :=
  (claim_C1 _ _ _).1 "X" (by decide)

/-- **C10.** `save_rule_content` called with an empty-string commit message
behaves identically to omitting the commit message: the commit is made with
the generated default message `"Update {path}"`, not with an empty
message. -/
theorem claim_C10 (rulePath content : String) :
    save_rule_content rulePath content (some "") =
      save_rule_content rulePath content none ∧
    (save_rule_content rulePath content (some "")).commitMessage =
      "Update " ++ rulePath := by
  constructor <;> simp [save_rule_content, pyOrStr]

/-! ## Claims about the caching layer -/

/-- **C2 (the code deviates at the claim's full-cache instance).**  The
hit and miss halves of the claim hold: an entry younger than the TTL is
returned without invoking the fetch function and its last-access timestamp
is refreshed, and an absent or expired entry causes the fetch function to
be invoked.  The "two identical calls before TTL expiry" sentence holds
when the first call needs no eviction (third conjunct), but fails on the
program when the cache is full: the first call then self-deadlocks inside
`_evict_oldest` — which re-acquires the non-reentrant `self.lock` already
held at line 110 — and never returns at all (fourth conjunct), so no second
call can observe the claimed memoized result. -/
theorem claim_C2 {α : Type} (ttl : Int) (maxSize : Nat) :
    (∀ (st : CacheState α) key now (e : CacheEntry α) fetch,
      alLookup key st.cache = some e → now - e.timestamp < ttl →
      get_cached_or_fetch ttl maxSize now st key fetch =
        ⟨CallResult.value e.data, ⟨st.cache, alInsert key now st.accessTimes⟩,
         false⟩) ∧
    (∀ (st : CacheState α) key now fetch,
      (alLookup key st.cache = none ∨
        ∀ e, alLookup key st.cache = some e → ttl ≤ now - e.timestamp) →
      (get_cached_or_fetch ttl maxSize now st key fetch).fetchInvoked = true) ∧
    (∀ (st : CacheState α) key t₁ t₂ (d : α) fetch₂,
      alLookup key st.cache = none → st.cache.length < maxSize →
      t₂ - t₁ < ttl →
      (get_cached_or_fetch ttl maxSize t₁ st key (some d)).result =
        CallResult.value d ∧
      get_cached_or_fetch ttl maxSize t₂
          (get_cached_or_fetch ttl maxSize t₁ st key (some d)).state key fetch₂ =
        ⟨CallResult.value d,
         ⟨(get_cached_or_fetch ttl maxSize t₁ st key (some d)).state.cache,
          alInsert key t₂
            (get_cached_or_fetch ttl maxSize t₁ st key (some d)).state.accessTimes⟩,
         false⟩) ∧
    (∀ (st : CacheState α) key now (d : α),
      alLookup key st.cache = none → maxSize ≤ st.cache.length →
      st.accessTimes ≠ [] →
      get_cached_or_fetch ttl maxSize now st key (some d) =
        ⟨CallResult.hung, st, true⟩) := by
  refine ⟨fun st key now e fetch h hv => get_hit_eq ttl maxSize now st key fetch e h hv,
    fun st key now fetch h => get_fetch_invoked_of_miss ttl maxSize now st key fetch h,
    fun st key t₁ t₂ d fetch₂ hmiss hlen hfresh => ?_,
    fun st key now d hmiss hge hat =>
      get_miss_deadlock ttl maxSize now st key d hmiss hge hat⟩
  have h₁ := get_miss_insert ttl maxSize t₁ st key d hmiss hlen
  rw [h₁]
  refine ⟨rfl, ?_⟩
  have h₂ : alLookup key (alInsert key (⟨d, t₁⟩ : CacheEntry α) st.cache) =
      some ⟨d, t₁⟩ := alLookup_insert_self key _ st.cache
  exact get_hit_eq ttl maxSize t₂ _ key fetch₂ ⟨d, t₁⟩ h₂ hfresh

theorem claim_C2_witness :
    get_cached_or_fetch 300 10 5
        (⟨[("k", ⟨7, 0⟩)], [("k", 0)]⟩ : CacheState Nat) "k" none =
      ⟨CallResult.value 7, ⟨[("k", ⟨7, 0⟩)], [("k", 5)]⟩, false⟩ := by
  have := (claim_C2 (α := Nat) 300 10).1 ⟨[("k", ⟨7, 0⟩)], [("k", 0)]⟩ "k" 5
    ⟨7, 0⟩ none (by decide) (by decide)
  simpa [alInsert] using this

/-- **C3 (the code deviates: eviction deadlocks).**  Below capacity the
claim's insertion half holds: no entry is evicted and the new entry is
inserted with creation and last-access timestamps set to now.  But the
eviction half never happens on the program: at or above capacity the source
computes `oldest_key` — indeed a key with minimal last-access timestamp
(least-recently accessed, not least-recently inserted; first three parts of
the existential) — and then re-acquires the non-reentrant `self.lock` it
already holds, so the call hangs forever: nothing is evicted, nothing is
inserted, and no result is returned (last part of the existential). -/
theorem claim_C3 {α : Type} (ttl : Int) (maxSize : Nat) (now : Int)
    (st : CacheState α) (key : String) (d : α)
    (hmiss : alLookup key st.cache = none) :
    (st.cache.length < maxSize →
      get_cached_or_fetch ttl maxSize now st key (some d) =
        ⟨CallResult.value d,
         ⟨alInsert key ⟨d, now⟩ st.cache, alInsert key now st.accessTimes⟩,
         true⟩) ∧
    (1 ≤ maxSize → maxSize ≤ st.cache.length → WF st →
      ∃ k₀ t₀, minByVal st.accessTimes = some (k₀, t₀) ∧
        (k₀, t₀) ∈ st.accessTimes ∧
        (∀ q ∈ st.accessTimes, t₀ ≤ q.2) ∧
        get_cached_or_fetch ttl maxSize now st key (some d) =
          ⟨CallResult.hung, st, true⟩) := by
  constructor
  · exact fun hlen => get_miss_insert ttl maxSize now st key d hmiss hlen
  · intro hpos hge hWF
    have hc : st.cache ≠ [] := by
      intro hnil
      rw [hnil] at hge
      simp at hge
      omega
    have hat : st.accessTimes ≠ [] := accessTimes_ne_nil st hWF hc
    cases hm : minByVal st.accessTimes with
    | none => exact absurd ((minByVal_none_iff _).mp hm) hat
    | some m =>
        obtain ⟨k₀, t₀⟩ := m
        exact ⟨k₀, t₀, rfl, minByVal_mem _ _ hm, minByVal_le _ _ hm,
          get_miss_deadlock ttl maxSize now st key d hmiss hge hat⟩

theorem claim_C3_witness :
    ∃ k₀ t₀,
      minByVal [("a", (0 : Int))] = some (k₀, t₀) ∧
      (k₀, t₀) ∈ [("a", (0 : Int))] ∧
      (∀ q ∈ [("a", (0 : Int))], t₀ ≤ q.2) ∧
      get_cached_or_fetch 300 1 5
          (⟨[("a", ⟨1, 0⟩)], [("a", 0)]⟩ : CacheState Nat) "b" (some 2) =
        ⟨CallResult.hung, ⟨[("a", ⟨1, 0⟩)], [("a", 0)]⟩, true⟩ :=
  (claim_C3 300 1 5 ⟨[("a", ⟨1, 0⟩)], [("a", 0)]⟩ "b" 2 (by decide)).2
    (by decide) (by decide) (by decide)

/-- **C4.** If the wrapped fetch function fails on a miss, the failure
propagates to the caller and the cache state (both dicts) is unchanged, so
a later call with the same key performs the underlying fetch again. -/
theorem claim_C4 {α : Type} (ttl : Int) (maxSize : Nat) (now : Int)
    (st : CacheState α) (key : String)
    (hmiss : alLookup key st.cache = none ∨
      ∀ e, alLookup key st.cache = some e → ttl ≤ now - e.timestamp) :
    get_cached_or_fetch ttl maxSize now st key none =
      ⟨CallResult.raised, st, true⟩ ∧
    (∀ (now' : Int) (fetch' : Option α), now ≤ now' →
      (get_cached_or_fetch ttl maxSize now' st key fetch').fetchInvoked = true) := by
  constructor
  · exact get_miss_fail_eq ttl maxSize now st key hmiss
  · intro now' fetch' hmono
    apply get_fetch_invoked_of_miss
    rcases hmiss with h | h
    · exact Or.inl h
    · exact Or.inr (fun e he => le_trans (h e he) (by omega))

theorem claim_C4_witness :
    get_cached_or_fetch 300 10 400
        (⟨[("k", ⟨7, 0⟩)], [("k", 0)]⟩ : CacheState Nat) "k" none =
      ⟨CallResult.raised, ⟨[("k", ⟨7, 0⟩)], [("k", 0)]⟩, true⟩ :=
  (claim_C4 300 10 400 ⟨[("k", ⟨7, 0⟩)], [("k", 0)]⟩ "k"
    (Or.inr (by
      intro e he
      rw [show alLookup "k" [("k", (⟨7, 0⟩ : CacheEntry Nat))] =
        some ⟨7, 0⟩ from rfl] at he
      cases he
      decide))).1

/-- **C8.** After `invalidate_cache`, the entry for the key is absent, so the
next lookup for that key invokes the wrapped operation regardless of TTL;
invalidating a key that is not cached leaves the state unchanged. -/
theorem claim_C8 {α : Type} (st : CacheState α) (key : String) :
    alLookup key (invalidate_cache st key).cache = none ∧
    (∀ (ttl : Int) (maxSize : Nat) (now : Int) (fetch : Option α),
      (get_cached_or_fetch ttl maxSize now (invalidate_cache st key) key
        fetch).fetchInvoked = true) ∧
    (alLookup key st.cache = none → invalidate_cache st key = st) := by
  have habsent : alLookup key (invalidate_cache st key).cache = none := by
    rw [invalidate_cache]
    by_cases hs : (alLookup key st.cache).isSome
    · rw [if_pos hs]
      exact alLookup_erase_self key st.cache
    · rw [if_neg hs]
      exact Option.not_isSome_iff_eq_none.mp hs
  refine ⟨habsent, ?_, ?_⟩
  · intro ttl maxSize now fetch
    exact get_fetch_invoked_of_miss ttl maxSize now _ key fetch (Or.inl habsent)
  · intro h
    rw [invalidate_cache, if_neg (by rw [h]; simp)]

theorem claim_C8_witness :
    invalidate_cache (⟨[("a", ⟨3, 0⟩)], [("a", 0)]⟩ : CacheState Nat) "k" =
      ⟨[("a", ⟨3, 0⟩)], [("a", 0)]⟩ :=
  (claim_C8 ⟨[("a", ⟨3, 0⟩)], [("a", 0)]⟩ "k").2.2 (by decide)

/-- **C6 counterexample.** With `max_cache_size = 0`, a successful fetch on
an empty cache does **not** return its result: `_evict_oldest` applies
`min` to the empty `access_times` dict, which raises `ValueError`; the
error propagates and nothing is returned or cached.  This refutes the claim
that every cache operation with `max_cache_size = 0` completes without
error. -/
theorem claim_C6_counterexample :
    get_cached_or_fetch 300 0 5 (emptyCache : CacheState Nat) "k" (some 42) =
      ⟨CallResult.raised, emptyCache, true⟩ ∧
    (get_cached_or_fetch 300 0 5 (emptyCache : CacheState Nat) "k"
      (some 42)).result ≠ CallResult.value 42 := by
  constructor <;> decide

/-- **C6 (amended).**  With `ttl_seconds = 0` every entry created at or
before the current time is immediately expired, and a cached read whose
fetch succeeds still completes and returns the fresh result whenever the
cache is below `max_cache_size`, so that no eviction is attempted (when an
eviction is required the operation self-deadlocks; see C3).  With
`max_cache_size = 0`, lookups and invalidation are still well-defined but a
successful fetch on the empty cache fails during insertion — the eviction
step's `min` over the empty access-time dict raises `ValueError` — and its
result is not delivered to the caller, the cache left unchanged. -/
theorem claim_C6_amended {α : Type} (maxSize : Nat) :
    (∀ (e : CacheEntry α) (now : Int), e.timestamp ≤ now →
      is_cache_valid 0 now e = false) ∧
    (∀ (st : CacheState α) key now (d : α), st.cache.length < maxSize →
      (alLookup key st.cache = none ∨
        ∀ e, alLookup key st.cache = some e → (0 : Int) ≤ now - e.timestamp) →
      (get_cached_or_fetch 0 maxSize now st key (some d)).result =
        CallResult.value d) ∧
    (∀ (ttl now : Int) (key : String) (d : α),
      get_cached_or_fetch ttl 0 now (emptyCache : CacheState α) key (some d) =
        ⟨CallResult.raised, emptyCache, true⟩) := by
  refine ⟨fun e now h => ?_, fun st key now d hlt h => ?_,
    fun ttl now key d => ?_⟩
  · simp [is_cache_valid]
    omega
  · have hev : evict_oldest maxSize st = EvictOutcome.proceed st := by
      rw [evict_oldest, if_neg (not_le.mpr hlt)]
    rw [get_miss_eq 0 maxSize now st key (some d) h, cache_miss_fetch, hev]
  · rfl

theorem claim_C6_amended_witness :
    (get_cached_or_fetch 0 1 5 (emptyCache : CacheState Nat) "k"
      (some 9)).result = CallResult.value 9 :=
  (claim_C6_amended (α := Nat) 1).2.1 emptyCache "k" 5 9 (by decide)
    (Or.inl (by decide))

/-- **C9.** For every `max_cache_size ≥ 1`, starting from an empty cache,
every sequence of cached-read operations and invalidations keeps the number
of cached entries at or below `max_cache_size`. -/
theorem claim_C9 {α : Type} (ttl : Int) (maxSize : Nat)
    (ops : List (CacheOp α)) (_hpos : 1 ≤ maxSize) :
    (applyOps ttl maxSize emptyCache ops).cache.length ≤ maxSize := by
  suffices h : ∀ (st : CacheState α), WF st → st.cache.length ≤ maxSize →
      WF (applyOps ttl maxSize st ops) ∧
        (applyOps ttl maxSize st ops).cache.length ≤ maxSize by
    exact (h emptyCache WF_empty (Nat.zero_le maxSize)).2
  induction ops with
  | nil => exact fun st hWF hlen => ⟨hWF, hlen⟩
  | cons op rest ih =>
      intro st hWF hlen
      rw [applyOps]
      apply ih
      all_goals
        cases op with
        | invalidate key =>
            rw [applyOp, invalidate_cache]
            by_cases hs : (alLookup key st.cache).isSome
            · rw [if_pos hs]
              first
              | exact WF_erase st key hWF
              | exact le_trans (alErase_length_le key st.cache) hlen
            · rw [if_neg hs]
              first
              | exact hWF
              | exact hlen
        | read key nowR fetch =>
            rw [applyOp]
            cases hl : alLookup key st.cache with
            | some e =>
                by_cases hv : is_cache_valid ttl nowR e = true
                · rw [get_hit_eq ttl maxSize nowR st key fetch e hl
                    (by simpa [is_cache_valid] using hv)]
                  first
                  | exact WF_touch st key nowR hWF (by rw [hl]; simp)
                  | exact hlen
                · rw [get_miss_eq ttl maxSize nowR st key fetch
                    (Or.inr (fun e' he' => by
                      rw [hl] at he'
                      cases he'
                      exact not_lt.mp (by simpa [is_cache_valid] using hv)))]
                  first
                  | exact cache_miss_fetch_WF maxSize nowR st key fetch hWF
                  | exact cache_miss_fetch_len maxSize nowR st key fetch hlen
            | none =>
                rw [get_miss_eq ttl maxSize nowR st key fetch (Or.inl hl)]
                first
                | exact cache_miss_fetch_WF maxSize nowR st key fetch hWF
                | exact cache_miss_fetch_len maxSize nowR st key fetch hlen

/-! ## Order lemmas for the cache-key sort -/

theorem strLtb_irrefl (a : List Char) : strLtb a a = false := by
  induction a with
  | nil => rfl
  | cons x xs ih => simp [strLtb, lt_self_iff_false, ih]

theorem strLtb_asymm (a b : List Char) (h : strLtb a b = true) :
    strLtb b a = false := by
  induction a generalizing b with
  | nil =>
      cases b with
      | nil => simp [strLtb] at h
      | cons y ys => simp [strLtb]
  | cons x xs ih =>
      cases b with
      | nil => simp [strLtb] at h
      | cons y ys =>
          rw [strLtb] at h ⊢
          by_cases hxy : x < y
          · have hyx : ¬y < x := fun hyx => absurd (lt_trans hxy hyx) (lt_irrefl x)
            rw [if_neg hyx, if_pos hxy]
          · rw [if_neg hxy] at h
            by_cases hyx : y < x
            · rw [if_pos hyx] at h
              simp at h
            · rw [if_neg hyx] at h
              rw [if_neg hyx, if_neg hxy]
              exact ih ys h

theorem strLtb_trans (a b c : List Char) (hab : strLtb a b = true)
    (hbc : strLtb b c = true) : strLtb a c = true := by
  induction a generalizing b c with
  | nil =>
      cases b with
      | nil => simp [strLtb] at hab
      | cons y ys =>
          cases c with
          | nil => simp [strLtb] at hbc
          | cons z zs => rfl
  | cons x xs ih =>
      cases b with
      | nil => simp [strLtb] at hab
      | cons y ys =>
          cases c with
          | nil => simp [strLtb] at hbc
          | cons z zs =>
              rw [strLtb] at hab hbc ⊢
              by_cases hxy : x < y
              · by_cases hyz : y < z
                · rw [if_pos (lt_trans hxy hyz)]
                · rw [if_neg hyz] at hbc
                  by_cases hzy : z < y
                  · rw [if_pos hzy] at hbc
                    simp at hbc
                  · have hyz' : y = z := le_antisymm (not_lt.mp hzy) (not_lt.mp hyz)
                    rw [if_pos (hyz' ▸ hxy)]
              · rw [if_neg hxy] at hab
                by_cases hyx : y < x
                · rw [if_pos hyx] at hab
                  simp at hab
                · rw [if_neg hyx] at hab
                  have hxy' : x = y := le_antisymm (not_lt.mp hyx) (not_lt.mp hxy)
                  subst hxy'
                  by_cases hxz : x < z
                  · rw [if_pos hxz]
                  · rw [if_neg hxz] at hbc ⊢
                    by_cases hzx : z < x
                    · rw [if_pos hzx] at hbc
                      simp at hbc
                    · rw [if_neg hzx] at hbc ⊢
                      exact ih ys zs hab hbc

theorem strLtb_connex (a b : List Char) :
    strLtb a b = true ∨ a = b ∨ strLtb b a = true := by
  induction a generalizing b with
  | nil =>
      cases b with
      | nil => exact Or.inr (Or.inl rfl)
      | cons y ys => exact Or.inl rfl
  | cons x xs ih =>
      cases b with
      | nil => exact Or.inr (Or.inr rfl)
      | cons y ys =>
          rcases lt_trichotomy x y with hxy | hxy | hxy
          · left
            rw [strLtb, if_pos hxy]
          · subst hxy
            rcases ih ys with h | h | h
            · left
              rw [strLtb, if_neg (lt_irrefl x), if_neg (lt_irrefl x)]
              exact h
            · right; left
              rw [h]
            · right; right
              rw [strLtb, if_neg (lt_irrefl x), if_neg (lt_irrefl x)]
              exact h
          · right; right
            rw [strLtb, if_pos hxy]

/-- The ordering used by `sorted(params.items())`, as a relation. -/
def pairLe (p q : String × String) : Prop := pairLeb p q = true

theorem pairLe_total (p q : String × String) : pairLe p q ∨ pairLe q p := by
  obtain ⟨pa, pb⟩ := p
  obtain ⟨qa, qb⟩ := q
  unfold pairLe pairLeb
  rcases strLtb_connex pa.data qa.data with h | h | h
  · left
    simp [h]
  · have h1 : pa = qa := String.ext h
    subst h1
    rcases strLtb_connex pb.data qb.data with h2 | h2 | h2
    · left
      simp [h2]
    · have h3 : pb = qb := String.ext h2
      subst h3
      left
      simp
    · right
      simp [h2]
  · right
    simp [h]

theorem pairLe_antisymm (p q : String × String) (h1 : pairLe p q)
    (h2 : pairLe q p) : p = q := by
  obtain ⟨pa, pb⟩ := p
  obtain ⟨qa, qb⟩ := q
  unfold pairLe pairLeb at h1 h2
  simp only [Bool.or_eq_true, Bool.and_eq_true, beq_iff_eq] at h1 h2
  rcases h1 with h1 | ⟨h1k, h1v⟩
  · rcases h2 with h2 | ⟨h2k, h2v⟩
    · rw [strLtb_asymm _ _ h1] at h2
      simp at h2
    · rw [h2k] at h1
      rw [strLtb_irrefl] at h1
      simp at h1
  · rcases h2 with h2 | ⟨h2k, h2v⟩
    · rw [h1k] at h2
      rw [strLtb_irrefl] at h2
      simp at h2
    · subst h1k
      rcases h1v with h1v | h1v
      · rcases h2v with h2v | h2v
        · rw [strLtb_asymm _ _ h1v] at h2v
          simp at h2v
        · subst h2v
          rfl
      · subst h1v
        rfl

theorem pairLe_trans (p q r : String × String) (h1 : pairLe p q)
    (h2 : pairLe q r) : pairLe p r := by
  obtain ⟨pa, pb⟩ := p
  obtain ⟨qa, qb⟩ := q
  obtain ⟨ra, rb⟩ := r
  unfold pairLe pairLeb at h1 h2 ⊢
  simp only [Bool.or_eq_true, Bool.and_eq_true, beq_iff_eq] at h1 h2 ⊢
  rcases h1 with h1 | ⟨h1k, h1v⟩ <;> rcases h2 with h2 | ⟨h2k, h2v⟩
  · left
    exact strLtb_trans _ _ _ h1 h2
  · left
    rw [← h2k]
    exact h1
  · left
    rw [h1k]
    exact h2
  · right
    refine ⟨h1k.trans h2k, ?_⟩
    rcases h1v with h1v | h1v
    · rcases h2v with h2v | h2v
      · left
        exact strLtb_trans _ _ _ h1v h2v
      · left
        rw [← h2v]
        exact h1v
    · rcases h2v with h2v | h2v
      · left
        rw [h1v]
        exact h2v
      · right
        exact h1v.trans h2v

instance : IsTrans (String × String) pairLe := ⟨pairLe_trans⟩

instance : IsAntisymm (String × String) pairLe := ⟨pairLe_antisymm⟩

theorem insertPair_perm (p : String × String) (l : List (String × String)) :
    List.Perm (insertPair p l) (p :: l) := by
  induction l with
  | nil => exact List.Perm.refl _
  | cons q rest ih =>
      rw [insertPair]
      by_cases h : pairLeb p q = true
      · rw [if_pos h]
      · rw [if_neg h]
        exact List.Perm.trans (List.Perm.cons q ih) (List.Perm.swap p q rest)

theorem sortPairs_perm (l : List (String × String)) :
    List.Perm (sortPairs l) l := by
  induction l with
  | nil => exact List.Perm.refl _
  | cons p rest ih =>
      rw [sortPairs]
      exact List.Perm.trans (insertPair_perm p (sortPairs rest))
        (List.Perm.cons p ih)

theorem insertPair_sorted (p : String × String) (l : List (String × String))
    (h : List.Sorted pairLe l) : List.Sorted pairLe (insertPair p l) := by
  induction l with
  | nil => simp [insertPair]
  | cons q rest ih =>
      have h' := List.sorted_cons.mp h
      rw [insertPair]
      by_cases hpq : pairLeb p q = true
      · rw [if_pos hpq]
        rw [List.sorted_cons]
        refine ⟨fun b hb => ?_, h⟩
        rcases List.mem_cons.mp hb with hb | hb
        · subst hb
          exact hpq
        · exact pairLe_trans p q b hpq (h'.1 b hb)
      · rw [if_neg hpq]
        rw [List.sorted_cons]
        constructor
        · intro b hb
          have hb' : b ∈ p :: rest := (insertPair_perm p rest).mem_iff.mp hb
          rcases List.mem_cons.mp hb' with hb' | hb'
          · subst hb'
            rcases pairLe_total b q with htot | htot
            · exact absurd htot hpq
            · exact htot
          · exact h'.1 b hb'
        · exact ih h'.2

theorem sortPairs_sorted (l : List (String × String)) :
    List.Sorted pairLe (sortPairs l) := by
  induction l with
  | nil => simp [sortPairs]
  | cons p rest ih =>
      rw [sortPairs]
      exact insertPair_sorted p _ ih

theorem sortPairs_eq_of_perm (l₁ l₂ : List (String × String))
    (h : List.Perm l₁ l₂) : sortPairs l₁ = sortPairs l₂ :=
  List.eq_of_perm_of_sorted
    (List.Perm.trans (sortPairs_perm l₁)
      (List.Perm.trans h (sortPairs_perm l₂).symm))
    (sortPairs_sorted l₁) (sortPairs_sorted l₂)

/-- **C5 counterexample.** Two distinct parameter maps produce the same
pre-hash `key_input` string (hence the same SHA-256 cache key) because the
`k=v&...` serialization is ambiguous when a value contains `&` or `=`:
`{"a": "1&b=2"}` and `{"a": "1", "b": "2"}` both serialize to
`"get_rule:a=1&b=2"`.  This is a genuine collision of the canonicalization,
not a hash collision, so the uniqueness half of the claim is false. -/
theorem claim_C5_counterexample :
    ([("a", "1&b=2")] : List (String × String)) ≠ [("a", "1"), ("b", "2")] ∧
    generate_cache_key_input "get_rule" [("a", "1&b=2")] =
      generate_cache_key_input "get_rule" [("a", "1"), ("b", "2")] := by
  constructor
  · decide
  · decide

/-- **C5 (amended).** The cache-key function is deterministic: the same
operation name with the same parameter map — in any ordering of its pairs —
always yields the same pre-hash string and hence the same key.  (Uniqueness
does not hold: see the counterexample.) -/
theorem claim_C5_amended (method : String)
    (params₁ params₂ : List (String × String)) (h : List.Perm params₁ params₂) :
    generate_cache_key_input method params₁ =
      generate_cache_key_input method params₂ := by
  unfold generate_cache_key_input
  rw [sortPairs_eq_of_perm params₁ params₂ h]

theorem claim_C5_amended_witness :
    generate_cache_key_input "get_rule" [("b", "2"), ("a", "1")] =
      generate_cache_key_input "get_rule" [("a", "1"), ("b", "2")] :=
  claim_C5_amended "get_rule" _ _ (by decide)

theorem claim_C9_witness :
    (applyOps 300 1 (emptyCache : CacheState Nat)
      [CacheOp.read "a" 0 (some 1), CacheOp.read "b" 1 (some 2),
       CacheOp.invalidate "a"]).cache.length ≤ 1 :=
  claim_C9 300 1 _ (by decide)

/-! ## Lemmas about `pathlib` suffixes and `list_rules` -/

theorem pySuffix_eq_none (name : String)
    (h : lastIdxOf '.' name.data = none) : pySuffix name = "" := by
  rw [pySuffix, h]

theorem pySuffix_eq_some (name : String) (i : Nat)
    (h : lastIdxOf '.' name.data = some i) :
    pySuffix name =
      if 0 < i ∧ i + 1 < name.data.length then String.mk (name.data.drop i)
      else "" := by
  rw [pySuffix, h]

theorem lastIdxOf_append_some (c : Char) (l₁ l₂ : List Char) (i : Nat)
    (h : lastIdxOf c l₂ = some i) :
    lastIdxOf c (l₁ ++ l₂) = some (l₁.length + i) := by
  induction l₁ with
  | nil => simpa using h
  | cons x xs ih =>
      rw [List.cons_append, lastIdxOf, ih]
      show some (xs.length + i + 1) = some ((x :: xs).length + i)
      rw [List.length_cons]
      congr 1
      omega

/-- The source filter `item.suffix == ".mdc"` is equivalent to "the name
ends in `.mdc` **and** has a nonempty stem": a file named exactly `.mdc`
has `pathlib` suffix `""` and is not matched. -/
theorem pySuffix_eq_mdc_iff (name : String) :
    pySuffix name = ".mdc" ↔
      List.IsSuffix ".mdc".data name.data ∧ 4 < name.data.length := by
  constructor
  · intro h
    cases hL : lastIdxOf '.' name.data with
    | none =>
        rw [pySuffix_eq_none name hL] at h
        exact absurd h (by decide)
    | some i =>
        rw [pySuffix_eq_some name i hL] at h
        by_cases hc : 0 < i ∧ i + 1 < name.data.length
        · rw [if_pos hc] at h
          have hdata : name.data.drop i = ".mdc".data := congrArg String.data h
          constructor
          · have hsfx := List.drop_suffix i name.data
            rw [hdata] at hsfx
            exact hsfx
          · have hlen : (name.data.drop i).length = name.data.length - i :=
              List.length_drop i name.data
            rw [hdata] at hlen
            have h4 : (".mdc".data).length = 4 := by decide
            rw [h4] at hlen
            omega
        · rw [if_neg hc] at h
          exact absurd h (by decide)
  · rintro ⟨⟨pre, hpre⟩, hlen⟩
    have hL : lastIdxOf '.' name.data = some pre.length := by
      rw [← hpre]
      have := lastIdxOf_append_some '.' pre ".mdc".data 0 (by decide)
      simpa using this
    have h4 : (".mdc".data).length = 4 := by decide
    have hlen' : name.data.length = pre.length + 4 := by
      rw [← hpre, List.length_append, h4]
    have hpos : 0 < pre.length := by omega
    rw [pySuffix_eq_some name pre.length hL,
      if_pos ⟨hpos, (by omega : pre.length + 1 < name.data.length)⟩,
      ← hpre, List.drop_left]

/-- **C7 counterexample.** A directory containing exactly one file whose
name — `.mdc` — ends in the rule extension `.mdc` yields zero entries:
`pathlib` reports an empty suffix for the dotfile `.mdc`, so the source's
`item.suffix == ".mdc"` filter omits it, while the claim as stated requires
a `file` entry for every file whose name ends in `.mdc`. -/
theorem claim_C7_counterexample :
    List.IsSuffix ".mdc".data ".mdc".data ∧
    list_rules "arclio" "c1" (fun _ => "sha") (some [DirItem.file ".mdc"]) "" =
      Except.ok [] := by
  constructor
  · decide
  · rfl

/-- **C7 (amended).** `list_rules` fails with `NotFound` when the directory
is missing or not a directory; otherwise it classifies each immediate child
independently: a subdirectory yields a `dir` entry, a file whose `pathlib`
suffix is `.mdc` — i.e. whose name ends in `.mdc` **with a nonempty stem**
— yields a `file` entry carrying the HEAD blob hash and a browse URL, and
every other file is omitted; so a directory with one subdirectory, one
regular `.mdc` file and one non-`.mdc` file yields exactly two entries. -/
theorem claim_C7_amended :
    (∀ (org clientId : String) (headSha : String → String) (directory : String),
      list_rules org clientId headSha none directory =
        Except.error "Directory not found") ∧
    (∀ name : String, pySuffix name = ".mdc" ↔
      (List.IsSuffix ".mdc".data name.data ∧ 4 < name.data.length)) ∧
    (∀ (org clientId : String) (headSha : String → String)
        (directory name : String),
      list_rules org clientId headSha (some [DirItem.dir name]) directory =
        Except.ok [RuleEntry.dirEntry name (relativePath directory name)]) ∧
    (∀ (org clientId : String) (headSha : String → String)
        (directory name : String), pySuffix name = ".mdc" →
      list_rules org clientId headSha (some [DirItem.file name]) directory =
        Except.ok [RuleEntry.fileEntry name (relativePath directory name)
          (headSha (relativePath directory name))
          (browseUrl org clientId (relativePath directory name))]) ∧
    (∀ (org clientId : String) (headSha : String → String)
        (directory name : String), pySuffix name ≠ ".mdc" →
      list_rules org clientId headSha (some [DirItem.file name]) directory =
        Except.ok []) ∧
    (∀ (org clientId : String) (headSha : String → String),
      list_rules org clientId headSha
          (some [DirItem.dir "sub", DirItem.file "a.mdc", DirItem.file "b.txt"])
          "" =
        Except.ok [RuleEntry.dirEntry "sub" "sub",
          RuleEntry.fileEntry "a.mdc" "a.mdc" (headSha "a.mdc")
            (browseUrl org clientId "a.mdc")]) := by
  refine ⟨fun org clientId headSha directory => rfl,
    pySuffix_eq_mdc_iff,
    fun org clientId headSha directory name => rfl,
    fun org clientId headSha directory name h => ?_,
    fun org clientId headSha directory name h => ?_,
    fun org clientId headSha => rfl⟩
  · simp [list_rules, h]
  · simp [list_rules, h]

theorem claim_C7_amended_witness :
    list_rules "arclio" "c1" (fun _ => "s") (some [DirItem.file "b.txt"]) "" =
      Except.ok [] :=
  claim_C7_amended.2.2.2.2.1 "arclio" "c1" (fun _ => "s") "" "b.txt" (by decide)

end ArclioRules
